import Mathlib

/-!
Verification of `enumerate.hpp`, a header-only utility for range-based
iteration over contiguous enumeration values.

Shallow embedding: an enumeration value is represented by its underlying
integer (`Int`; the claims are stated under exact integer arithmetic,
explicitly excluding overflow at the extremes of the underlying type).
The C++ classes `EnumIterBase`, `EnumIter`, `ReverseEnumIter` and
`Enumerate` are translated to Lean structures and functions; inheritance
is rendered as a `base` field, so the inherited `operator==` / `operator!=`
act on the base subobject.
-/

namespace Spec2Proof

/-- Embedding of `EnumIterBase<Enum>`: wraps a single enumeration value,
represented by its underlying integer `m_inner`. -/
structure EnumIterBase where
  m_inner : Int
deriving DecidableEq, Repr

/-- Embedding of `EnumIterBase::operator*`: return the wrapped item. -/
def EnumIterBase.deref (a : EnumIterBase) : Int := a.m_inner

/-- Embedding of `EnumIterBase::operator==`: iterators are equal if their
wrapped items are equal. -/
def EnumIterBase.eq (a b : EnumIterBase) : Bool := a.m_inner == b.m_inner

/-- Embedding of `EnumIterBase::operator!=`: iterators differ if their
wrapped items differ. -/
def EnumIterBase.ne (a b : EnumIterBase) : Bool := a.m_inner != b.m_inner

/-- Embedding of `EnumIterBase::unwrap`: convert the wrapped item to its
underlying integer value. -/
def EnumIterBase.unwrap (a : EnumIterBase) : Int := a.m_inner

/-- Embedding of `EnumIterBase::wrap`: wrap the item corresponding to the
integer `i`. -/
def EnumIterBase.wrap (i : Int) : EnumIterBase := ⟨i⟩

/-- Embedding of `EnumIter<Enum>`: the forwards iterator, inheriting from
`EnumIterBase<Enum>`. -/
structure EnumIter where
  base : EnumIterBase
deriving DecidableEq, Repr

/-- Embedding of `EnumIter::operator++`:
`base_type::wrap(base_type::unwrap()+1); return *this;`. -/
def EnumIter.inc (it : EnumIter) : EnumIter :=
  ⟨EnumIterBase.wrap (it.base.unwrap + 1)⟩

/-- Embedding of `EnumIter::operator--`:
`base_type::wrap(base_type::unwrap()-1); return *this;`. -/
def EnumIter.dec (it : EnumIter) : EnumIter :=
  ⟨EnumIterBase.wrap (it.base.unwrap - 1)⟩

/-- Embedding of `ReverseEnumIter<Enum>`: the backwards iterator, inheriting
from `EnumIterBase<Enum>`. -/
structure ReverseEnumIter where
  base : EnumIterBase
deriving DecidableEq, Repr

/-- Embedding of `ReverseEnumIter::operator++`:
`base_type::wrap(base_type::unwrap()-1); return *this;` (decrements). -/
def ReverseEnumIter.inc (it : ReverseEnumIter) : ReverseEnumIter :=
  ⟨EnumIterBase.wrap (it.base.unwrap - 1)⟩

/-- Embedding of `ReverseEnumIter::operator--`:
`base_type::wrap(base_type::unwrap()+1); return *this;` (increments). -/
def ReverseEnumIter.dec (it : ReverseEnumIter) : ReverseEnumIter :=
  ⟨EnumIterBase.wrap (it.base.unwrap + 1)⟩

/-- Embedding of `Enumerate<Enum>`: the range adapter, characterised by the
underlying integers of the protocol sentinels `Enum::BEGIN` and `Enum::END`
(fields `begin_value` and `end_value` of the C++ struct). -/
structure Enumerate where
  begin_value : Int
  end_value : Int
deriving DecidableEq, Repr

/-- Embedding of the compile-time check
`static_assert(begin_value <= end_value);` in `Enumerate`. -/
def Enumerate.static_assert (e : Enumerate) : Bool :=
  decide (e.begin_value ≤ e.end_value)

/-- An `Enumerate` instantiation is well-formed exactly when its
`static_assert` passes. -/
def Enumerate.wf (e : Enumerate) : Prop := e.static_assert = true

instance (e : Enumerate) : Decidable e.wf := by
  unfold Enumerate.wf; infer_instance

/-- Embedding of `Enumerate::begin`: `return iterator{begin_value};`. -/
def Enumerate.begin (e : Enumerate) : EnumIter := ⟨⟨e.begin_value⟩⟩

/-- Embedding of `Enumerate::end`: `return iterator{end_value};`
(`end` is reserved in Lean, hence the trailing underscore). -/
def Enumerate.end_ (e : Enumerate) : EnumIter := ⟨⟨e.end_value⟩⟩

/-- Embedding of `Enumerate::rbegin`:
`return ++reverse_iterator{end_value};`. -/
def Enumerate.rbegin (e : Enumerate) : ReverseEnumIter :=
  ReverseEnumIter.inc ⟨⟨e.end_value⟩⟩

/-- Embedding of `Enumerate::rend`:
`return ++reverse_iterator{begin_value};`. -/
def Enumerate.rend (e : Enumerate) : ReverseEnumIter :=
  ReverseEnumIter.inc ⟨⟨e.begin_value⟩⟩

/-- The number of values in the range: `end_value - begin_value` as a
natural number. -/
def Enumerate.size (e : Enumerate) : Nat := (e.end_value - e.begin_value).toNat

/-- Forward traversal loop, fuel-based: starting at `it`, while the cursor
does not compare equal to `stop`, dereference it and advance with
`EnumIter.inc` (the embedding of the loop
`for (it = begin(); it != end(); ++it) visit(*it);`). -/
def EnumIter.traverse (stop : EnumIter) : Nat → EnumIter → List Int
  | 0, _ => []
  | Nat.succ n, it =>
    if EnumIterBase.eq it.base stop.base then []
    else it.base.deref :: EnumIter.traverse stop n it.inc

/-- Reverse traversal loop, fuel-based: starting at `it`, while the cursor
does not compare equal to `stop`, dereference it and advance with
`ReverseEnumIter.inc` (the embedding of the loop
`for (it = rbegin(); it != rend(); ++it) visit(*it);`). -/
def ReverseEnumIter.traverse (stop : ReverseEnumIter) :
    Nat → ReverseEnumIter → List Int
  | 0, _ => []
  | Nat.succ n, it =>
    if EnumIterBase.eq it.base stop.base then []
    else it.base.deref :: ReverseEnumIter.traverse stop n it.inc

/-- The value sequence of the forward traversal of `e`. -/
def Enumerate.forwardList (e : Enumerate) (fuel : Nat) : List Int :=
  EnumIter.traverse e.end_ fuel e.begin

/-- The value sequence of the reverse traversal of `e`. -/
def Enumerate.reverseList (e : Enumerate) (fuel : Nat) : List Int :=
  ReverseEnumIter.traverse e.rend fuel e.rbegin

/-- Advance a forward cursor `n` times with `EnumIter.inc`. -/
def EnumIter.incN (it : EnumIter) : Nat → EnumIter
  | 0 => it
  | Nat.succ n => EnumIter.incN it.inc n

/-! Helper lemmas shared by the claim theorems. -/

theorem EnumIterBase.eq_true_iff (a b : EnumIterBase) :
    EnumIterBase.eq a b = true ↔ a.m_inner = b.m_inner := by
  simp [EnumIterBase.eq]

theorem Enumerate.wf_iff_le (e : Enumerate) :
    e.wf ↔ e.begin_value ≤ e.end_value := by
  simp [Enumerate.wf, Enumerate.static_assert]

theorem EnumIter.incN_m_inner (it : EnumIter) (n : Nat) :
    (it.incN n).base.m_inner = it.base.m_inner + n := by
  induction n generalizing it with
  | zero => simp [EnumIter.incN]
  | succ n ih =>
    rw [EnumIter.incN, ih]
    simp [EnumIter.inc, EnumIterBase.wrap, EnumIterBase.unwrap]
    omega

theorem EnumIter.traverse_succ (stop : EnumIter) (fuel : Nat) (it : EnumIter) :
    EnumIter.traverse stop (fuel + 1) it =
      if it.base.m_inner = stop.base.m_inner then []
      else it.base.m_inner :: EnumIter.traverse stop fuel it.inc := by
  simp only [EnumIter.traverse, EnumIterBase.deref]
  by_cases h : it.base.m_inner = stop.base.m_inner
  · rw [if_pos ((EnumIterBase.eq_true_iff _ _).mpr h), if_pos h]
  · rw [if_neg (fun hc => h ((EnumIterBase.eq_true_iff _ _).mp hc)), if_neg h]

theorem ReverseEnumIter.traverse_succ_rev (stop : ReverseEnumIter) (fuel : Nat)
    (it : ReverseEnumIter) :
    ReverseEnumIter.traverse stop (fuel + 1) it =
      if it.base.m_inner = stop.base.m_inner then []
      else it.base.m_inner :: ReverseEnumIter.traverse stop fuel it.inc := by
  simp only [ReverseEnumIter.traverse, EnumIterBase.deref]
  by_cases h : it.base.m_inner = stop.base.m_inner
  · rw [if_pos ((EnumIterBase.eq_true_iff _ _).mpr h), if_pos h]
  · rw [if_neg (fun hc => h ((EnumIterBase.eq_true_iff _ _).mp hc)), if_neg h]

theorem EnumIter.traverse_range (k : Nat) :
    ∀ (s : Int) (fuel : Nat), k ≤ fuel →
    EnumIter.traverse ⟨⟨s + k⟩⟩ fuel ⟨⟨s⟩⟩ =
      (List.range k).map (fun i : Nat => s + (i : Int)) := by
  induction k with
  | zero =>
    intro s fuel _
    cases fuel with
    | zero => simp [EnumIter.traverse]
    | succ n => rw [EnumIter.traverse_succ]; simp
  | succ k ih =>
    intro s fuel hf
    cases fuel with
    | zero => omega
    | succ n =>
      rw [EnumIter.traverse_succ, if_neg (by push_cast; omega)]
      have h1 : (⟨⟨s⟩⟩ : EnumIter).inc = ⟨⟨s + 1⟩⟩ := rfl
      have h2 : (⟨⟨s + ((k + 1 : Nat) : Int)⟩⟩ : EnumIter) = ⟨⟨(s + 1) + (k : Int)⟩⟩ := by
        norm_num
        ring
      rw [h1, h2, ih (s + 1) n (by omega), List.range_succ_eq_map, List.map_cons,
        List.map_map]
      refine List.cons_eq_cons.mpr ⟨by simp, ?_⟩
      apply List.map_congr_left
      intro i _
      simp only [Function.comp_apply]
      push_cast
      ring

theorem ReverseEnumIter.traverse_range_rev (k : Nat) :
    ∀ (s : Int) (fuel : Nat), k ≤ fuel →
    ReverseEnumIter.traverse ⟨⟨s - k⟩⟩ fuel ⟨⟨s⟩⟩ =
      (List.range k).map (fun i : Nat => s - (i : Int)) := by
  induction k with
  | zero =>
    intro s fuel _
    cases fuel with
    | zero => simp [ReverseEnumIter.traverse]
    | succ n => rw [ReverseEnumIter.traverse_succ_rev]; simp
  | succ k ih =>
    intro s fuel hf
    cases fuel with
    | zero => omega
    | succ n =>
      rw [ReverseEnumIter.traverse_succ_rev, if_neg (by push_cast; omega)]
      have h1 : (⟨⟨s⟩⟩ : ReverseEnumIter).inc = ⟨⟨s - 1⟩⟩ := rfl
      have h2 : (⟨⟨s - ((k + 1 : Nat) : Int)⟩⟩ : ReverseEnumIter)
          = ⟨⟨(s - 1) - (k : Int)⟩⟩ := by
        norm_num
        ring
      rw [h1, h2, ih (s - 1) n (by omega), List.range_succ_eq_map, List.map_cons,
        List.map_map]
      refine List.cons_eq_cons.mpr ⟨by simp, ?_⟩
      apply List.map_congr_left
      intro i _
      simp only [Function.comp_apply]
      push_cast
      ring

theorem Enumerate.forwardList_closed (e : Enumerate)
    (h : e.begin_value ≤ e.end_value) (fuel : Nat) (hf : e.size ≤ fuel) :
    e.forwardList fuel =
      (List.range e.size).map (fun i : Nat => e.begin_value + (i : Int)) := by
  have hEnd : (⟨⟨e.end_value⟩⟩ : EnumIter)
      = ⟨⟨e.begin_value + (e.size : Int)⟩⟩ := by
    norm_num [Enumerate.size]
    omega
  rw [Enumerate.forwardList, Enumerate.end_, Enumerate.begin, hEnd]
  exact EnumIter.traverse_range e.size e.begin_value fuel hf

theorem Enumerate.reverseList_closed (e : Enumerate)
    (h : e.begin_value ≤ e.end_value) (fuel : Nat) (hf : e.size ≤ fuel) :
    e.reverseList fuel =
      (List.range e.size).map (fun i : Nat => e.end_value - 1 - (i : Int)) := by
  have hBeg : (⟨⟨e.begin_value - 1⟩⟩ : ReverseEnumIter)
      = ⟨⟨(e.end_value - 1) - (e.size : Int)⟩⟩ := by
    norm_num [Enumerate.size]
    omega
  have hrb : e.rbegin = ⟨⟨e.end_value - 1⟩⟩ := rfl
  have hre : e.rend = ⟨⟨e.begin_value - 1⟩⟩ := rfl
  rw [Enumerate.reverseList, hrb, hre, hBeg]
  exact ReverseEnumIter.traverse_range_rev e.size (e.end_value - 1) fuel hf

theorem map_range_reverse (N : Nat) (f : Nat → Int) :
    ((List.range N).map f).reverse =
      (List.range N).map (fun i => f (N - 1 - i)) := by
  apply List.ext_getElem
  · simp
  · intro i h1 h2
    simp only [List.getElem_reverse, List.length_map, List.length_range,
      List.getElem_map, List.getElem_range]

/-! Claim theorems. -/

/-- C1: for every enumeration satisfying the protocol (`BEGIN ≤ END` on
underlying integers), iterating a forward cursor from `begin()` until it
equals `end()`, dereferencing at each step and advancing with `operator++`,
visits exactly the values `BEGIN, BEGIN+1, ..., END-1`, each exactly once,
in ascending integer order. -/
theorem forward_traversal_visits_range (e : Enumerate) (h : e.wf)
    (fuel : Nat) (hf : e.size ≤ fuel) :
    e.forwardList fuel =
      (List.range e.size).map (fun i : Nat => e.begin_value + (i : Int)) :=
  e.forwardList_closed (e.wf_iff_le.mp h) fuel hf

/-- Witness for C1: the enumeration with `BEGIN = 0`, `END = 3`. -/
theorem forward_traversal_visits_range_witness :
    (Enumerate.mk 0 3).wf ∧ (Enumerate.mk 0 3).size ≤ 3 ∧
    (Enumerate.mk 0 3).forwardList 3 =
      (List.range (Enumerate.mk 0 3).size).map
        (fun i : Nat => (Enumerate.mk 0 3).begin_value + (i : Int)) :=
  ⟨by decide, by decide,
    forward_traversal_visits_range ⟨0, 3⟩ (by decide) 3 (by decide)⟩

/-- C2: for every enumeration satisfying the protocol, the reverse
traversal from `rbegin()` to `rend()` yields exactly the reverse of the
forward traversal's value sequence (same set of values, each once, in
descending integer order). -/
theorem reverse_traversal_mirrors_forward (e : Enumerate) (h : e.wf)
    (fuel : Nat) (hf : e.size ≤ fuel) :
    e.reverseList fuel = (e.forwardList fuel).reverse := by
  have hle := e.wf_iff_le.mp h
  rw [e.forwardList_closed hle fuel hf, e.reverseList_closed hle fuel hf,
    map_range_reverse]
  apply List.map_congr_left
  intro i hi
  rw [List.mem_range] at hi
  unfold Enumerate.size at hi ⊢
  omega

/-- Witness for C2: the enumeration with `BEGIN = 0`, `END = 3`. -/
theorem reverse_traversal_mirrors_forward_witness :
    (Enumerate.mk 0 3).wf ∧ (Enumerate.mk 0 3).size ≤ 3 ∧
    (Enumerate.mk 0 3).reverseList 3 = ((Enumerate.mk 0 3).forwardList 3).reverse :=
  ⟨by decide, by decide,
    reverse_traversal_mirrors_forward ⟨0, 3⟩ (by decide) 3 (by decide)⟩

/-- C3: `rbegin()` wraps the value with underlying integer `END - 1` and
`rend()` wraps `BEGIN - 1`; each is computed by one application of the
reverse cursor's advance (`ReverseEnumIter.inc`) to a cursor wrapping the
corresponding forward sentinel. -/
theorem rbegin_rend_one_step_from_sentinels (e : Enumerate) :
    e.rbegin = ReverseEnumIter.inc ⟨⟨e.end_value⟩⟩ ∧
    e.rend = ReverseEnumIter.inc ⟨⟨e.begin_value⟩⟩ ∧
    e.rbegin.base.m_inner = e.end_value - 1 ∧
    e.rend.base.m_inner = e.begin_value - 1 :=
  ⟨rfl, rfl, rfl, rfl⟩

/-- C4: advancing a forward cursor `N` times from `begin()`, where `N` is
the number of values in the range (`END - BEGIN`), yields a cursor that
compares equal to `end()`. -/
theorem advance_size_times_reaches_end (e : Enumerate) (h : e.wf) :
    EnumIterBase.eq (e.begin.incN e.size).base e.end_.base = true := by
  rw [EnumIterBase.eq_true_iff, EnumIter.incN_m_inner]
  have hle := e.wf_iff_le.mp h
  simp only [Enumerate.begin, Enumerate.end_, Enumerate.size]
  omega

/-- Witness for C4: the enumeration with `BEGIN = 0`, `END = 3`. -/
theorem advance_size_times_reaches_end_witness :
    (Enumerate.mk 0 3).wf ∧
    EnumIterBase.eq
      (((Enumerate.mk 0 3).begin).incN (Enumerate.mk 0 3).size).base
      (Enumerate.mk 0 3).end_.base = true :=
  ⟨by decide, advance_size_times_reaches_end ⟨0, 3⟩ (by decide)⟩

/-- C5: the forward cursor's `operator++` adds 1 to the wrapped underlying
integer and its `operator--` subtracts 1, while the reverse cursor's
`operator++` subtracts 1 and its `operator--` adds 1 (semantics exactly
swapped); this holds for every cursor value, with no bounds checking, and
each step operation returns the stepped cursor itself. -/
theorem step_semantics_swapped (it : EnumIter) (rit : ReverseEnumIter) :
    it.inc.base.m_inner = it.base.m_inner + 1 ∧
    it.dec.base.m_inner = it.base.m_inner - 1 ∧
    rit.inc.base.m_inner = rit.base.m_inner - 1 ∧
    rit.dec.base.m_inner = rit.base.m_inner + 1 :=
  ⟨rfl, rfl, rfl, rfl⟩

/-- C6: two cursors of the same variant compare equal under `operator==`
(inherited from `EnumIterBase`) if and only if their wrapped values have
equal underlying integer representations. -/
theorem cursor_eq_iff_underlying_eq (a b : EnumIter) (ra rb : ReverseEnumIter) :
    (EnumIterBase.eq a.base b.base = true ↔ a.base.m_inner = b.base.m_inner) ∧
    (EnumIterBase.eq ra.base rb.base = true ↔ ra.base.m_inner = rb.base.m_inner) := by
  constructor <;> simp [EnumIterBase.eq]

/-- C7: when `BEGIN` and `END` have equal underlying integers (the empty
enumeration, for example `BEGIN = 0, END = 0`), `begin()` compares equal to
`end()`, and both the forward and the reverse traversal visit zero
elements. -/
theorem empty_range_traversals (e : Enumerate) (h : e.begin_value = e.end_value)
    (fuel : Nat) :
    EnumIterBase.eq e.begin.base e.end_.base = true ∧
    e.forwardList fuel = [] ∧ e.reverseList fuel = [] := by
  refine ⟨(EnumIterBase.eq_true_iff _ _).mpr h, ?_, ?_⟩
  · cases fuel with
    | zero => rfl
    | succ n =>
      rw [Enumerate.forwardList, EnumIter.traverse_succ,
        if_pos (show (e.begin).base.m_inner = (e.end_).base.m_inner from h)]
  · cases fuel with
    | zero => rfl
    | succ n =>
      rw [Enumerate.reverseList, ReverseEnumIter.traverse_succ_rev,
        if_pos (show e.rbegin.base.m_inner = e.rend.base.m_inner by
          show e.end_value - 1 = e.begin_value - 1
          omega)]

/-- Witness for C7: the empty enumeration `BEGIN = 0, END = 0`. -/
theorem empty_range_traversals_witness :
    EnumIterBase.eq (Enumerate.mk 0 0).begin.base (Enumerate.mk 0 0).end_.base = true ∧
    (Enumerate.mk 0 0).forwardList 2 = [] ∧ (Enumerate.mk 0 0).reverseList 2 = [] :=
  empty_range_traversals ⟨0, 0⟩ rfl 2

/-- C8: the compile-time well-formedness check of `Enumerate`
(`static_assert(begin_value <= end_value)`) passes if and only if
`BEGIN ≤ END` on underlying integers; any `E` with `BEGIN > END` is
rejected, and any `E` with `BEGIN ≤ END` is accepted. -/
theorem protocol_check_iff_le (e : Enumerate) :
    e.wf ↔ e.begin_value ≤ e.end_value := by
  simp [Enumerate.wf, Enumerate.static_assert]

/-- C9: for every cursor of either variant, `operator++` followed by
`operator--` (and `operator--` followed by `operator++`) yields a cursor
that compares equal to the original, under exact integer arithmetic. -/
theorem step_roundtrip (it : EnumIter) (rit : ReverseEnumIter) :
    EnumIterBase.eq it.inc.dec.base it.base = true ∧
    EnumIterBase.eq it.dec.inc.base it.base = true ∧
    EnumIterBase.eq rit.inc.dec.base rit.base = true ∧
    EnumIterBase.eq rit.dec.inc.base rit.base = true := by
  refine ⟨?_, ?_, ?_, ?_⟩ <;>
    · rw [EnumIterBase.eq_true_iff]
      simp only [EnumIter.inc, EnumIter.dec, ReverseEnumIter.inc,
        ReverseEnumIter.dec, EnumIterBase.wrap, EnumIterBase.unwrap]
      omega

/-- C10: for every two cursors, `operator!=` returns true exactly when
`operator==` returns false; inequality is the pointwise negation of
equality. -/
theorem ne_iff_not_eq (a b : EnumIterBase) :
    (EnumIterBase.ne a b = true ↔ EnumIterBase.eq a b = false) ∧
    EnumIterBase.ne a b = !(EnumIterBase.eq a b) := by
  constructor
  · simp [EnumIterBase.ne, EnumIterBase.eq]
  · simp [EnumIterBase.ne, EnumIterBase.eq, bne]

end Spec2Proof
